import Mathlib

/-!
Verification of the quota accounting and reservation engine (nova/quota.py).

Python dictionaries keyed by resource name are embedded as association
lists over Nat keys with the first occurrence of a key giving its value;
all functions below are direct translations of the corresponding methods
of DbQuotaDriver, NoopQuotaDriver and QuotaEngine, with the external
database reads (objects.Quotas.*) supplied as parameters.
-/

set_option linter.unusedVariables false

namespace NovaQuota

/-! Dictionary primitives mirroring Python dict usage. -/

abbrev AList := List (Nat × Int)

def keysOf (d : List (Nat × α)) : List Nat :=
  d.map Prod.fst

def lookupD : List (Nat × α) → Nat → Option α
  | [], _ => none
  | (k', v) :: t, k => if k' = k then some v else lookupD t k

def containsKey (d : List (Nat × α)) (k : Nat) : Bool :=
  (lookupD d k).isSome

def getD (d : AList) (k : Nat) (v0 : Int) : Int :=
  (lookupD d k).getD v0

def popKey (d : List (Nat × α)) (k : Nat) : List (Nat × α) :=
  d.filter (fun p => p.1 != k)

def dictInsert : List (Nat × α) → Nat → α → List (Nat × α)
  | [], k, v => [(k, v)]
  | (k', v') :: t, k, v =>
      if k' = k then (k, v) :: t else (k', v') :: dictInsert t k v

def insertSorted (k : Nat) : List Nat → List Nat
  | [] => [k]
  | a :: t => if k ≤ a then k :: a :: t else a :: insertSorted k t

/-- Model of Python sorted() on a list of resource keys. -/
def sortNat (l : List Nat) : List Nat :=
  l.foldr insertSorted []

/-! Unlimited-value helpers (DbQuotaDriver). -/

def UNLIMITED_VALUE : Int := -1

def is_unlimited_value (v : Int) : Bool :=
  decide (v ≤ UNLIMITED_VALUE)

def sum_quota_values (v1 v2 : Int) : Int :=
  if is_unlimited_value v1 || is_unlimited_value v2 then UNLIMITED_VALUE
  else v1 + v2

def sub_quota_values (v1 v2 : Int) : Int :=
  if is_unlimited_value v1 || is_unlimited_value v2 then UNLIMITED_VALUE
  else v1 - v2

/-! Errors shared by the limit-check entry points. -/

inductive LCErr where
  | invalidMethod (res : Nat)
  | invalid
  | invalidQuotaValue (unders : List Nat)
  | overQuota (overs : List Nat) (quotas : AList) (headroom : AList)
deriving Repr, DecidableEq

deriving instance DecidableEq for Except

/-!
DbQuotaDriver.limit_check_project_and_user.

The resolved project-scope limits (variable quotas in the source) and
user-scope limits (user_quotas) returned by _get_quotas are supplied as
the functions pq and uq; both source dictionaries range over all_keys.
resOk k models _valid_method_call_check_resource succeeding for key k.
The function returns the outcome together with the final contents of the
caller-supplied project_values and user_values dictionaries, which the
source mutates in place via pop.
-/

def allKeys (pv uv : AList) : List Nat :=
  keysOf pv ++ (keysOf uv).filter (fun k => !containsKey pv k)

def mergeKeys (pv uv : AList) : List Nat :=
  (keysOf pv).filter (fun k => !containsKey uv k) ++
    (keysOf uv).filter (fun k => !containsKey pv k)

def mergedValuesOf (pv uv : AList) : AList :=
  (mergeKeys pv uv).map fun k =>
    (k, if getD pv k 0 != 0 then getD pv k 0 else getD uv k 0)

def mergedQuotasOf (pq uq : Nat → Int) (pv uv : AList) : AList :=
  (allKeys pv uv).map fun k => (k, min (pq k) (uq k))

def projDict (pq : Nat → Int) (pv uv : AList) : AList :=
  (allKeys pv uv).map fun k => (k, pq k)

def userDict (uq : Nat → Int) (pv uv : AList) : AList :=
  (allKeys pv uv).map fun k => (k, uq k)

def pvAfter (pv uv : AList) : AList :=
  (mergeKeys pv uv).foldl popKey pv

def uvAfter (pv uv : AList) : AList :=
  (mergeKeys pv uv).foldl popKey uv

def mergedOvers (pq uq : Nat → Int) (pv uv : AList) : List Nat :=
  ((mergedValuesOf pv uv).filter fun kv =>
      decide (0 ≤ getD (mergedQuotasOf pq uq pv uv) kv.1 0) &&
      decide (getD (mergedQuotasOf pq uq pv uv) kv.1 0 < kv.2)).map (·.1)

/-- The project-scope test of the second loop: quotas[key] >= 0 and
quotas[key] < project_values[key]. -/
def projViolB (pq : Nat → Int) (pv2 : AList) (kv : Nat × Int) : Bool :=
  decide (0 ≤ pq kv.1) && decide (pq kv.1 < getD pv2 kv.1 0)

/-- The user-scope test of the second loop: user_quotas[key] >= 0 and
user_quotas[key] < user_values[key]. -/
def userViolB (uq : Nat → Int) (kv : Nat × Int) : Bool :=
  decide (0 ≤ uq kv.1) && decide (uq kv.1 < kv.2)

/-- Combined per-key condition of the second loop: the project check runs
first, and the user check runs only when the project check passes. -/
def bothCondB (pq uq : Nat → Int) (pv2 : AList) (kv : Nat × Int) : Bool :=
  projViolB pq pv2 kv || (!projViolB pq pv2 kv && userViolB uq kv)

/-- A key whose violation is user-scoped: the project check passes and
the user check fails (this is what sets over_user_quota). -/
def userOnlyB (pq uq : Nat → Int) (pv2 : AList) (kv : Nat × Int) : Bool :=
  !projViolB pq pv2 kv && userViolB uq kv

def bothStep (pq uq : Nat → Int) (pv2 : AList)
    (acc : List Nat × Bool) (kv : Nat × Int) : List Nat × Bool :=
  if projViolB pq pv2 kv then (acc.1 ++ [kv.1], acc.2)
  else if userViolB uq kv then (acc.1 ++ [kv.1], true)
  else acc

def bothScan (pq uq : Nat → Int) (pv2 uv2 : AList) : List Nat × Bool :=
  uv2.foldl (bothStep pq uq pv2) ([], false)

/-- The checks performed after input validation; when the merged group has
no violation the list mergedOvers is empty (also when merged_values itself
is empty, so the source's guard on merged_values collapses into this
test), and only then does the second loop over user_values run. -/
def lcpauChecks (pq uq : Nat → Int) (pv uv : AList) : Except LCErr Unit :=
  let mo := mergedOvers pq uq pv uv
  if mo.isEmpty then
    let s := bothScan pq uq (pvAfter pv uv) (uvAfter pv uv)
    if s.1.isEmpty then .ok ()
    else
      let qd := if s.2 then userDict uq pv uv else projDict pq pv uv
      .error (.overQuota (sortNat s.1) qd (s.1.map fun k => (k, getD qd k 0)))
  else
    let mq := mergedQuotasOf pq uq pv uv
    .error (.overQuota (sortNat mo) mq (mo.map fun k => (k, getD mq k 0)))

def limit_check_project_and_user (resOk : Nat → Bool) (pq uq : Nat → Int)
    (pv uv : AList) : Except LCErr Unit × AList × AList :=
  match (keysOf pv).find? (fun k => !resOk k) with
  | some k => (.error (.invalidMethod k), pv, uv)
  | none =>
  match (keysOf uv).find? (fun k => !resOk k) with
  | some k => (.error (.invalidMethod k), pv, uv)
  | none =>
  if pv.isEmpty && uv.isEmpty then (.error .invalid, pv, uv)
  else
  let pUnders := (pv.filter fun p => decide (p.2 < 0)).map (·.1)
  if !pUnders.isEmpty then (.error (.invalidQuotaValue (sortNat pUnders)), pv, uv)
  else
  let uUnders := (uv.filter fun p => decide (p.2 < 0)).map (·.1)
  if !uUnders.isEmpty then (.error (.invalidQuotaValue (sortNat uUnders)), pv, uv)
  else
    (lcpauChecks pq uq pv uv, pvAfter pv uv, uvAfter pv uv)

/-- First component of the overQuota payload of a result, else []. -/
def oversOf : Except LCErr Unit × AList × AList → List Nat
  | (.error (.overQuota o _ _), _, _) => o
  | _ => []

/-- Quotas dictionary attached to an overQuota result, else []. -/
def quotasOf : Except LCErr Unit × AList × AList → AList
  | (.error (.overQuota _ q _), _, _) => q
  | _ => []

/-- Headroom dictionary attached to an overQuota result, else []. -/
def headroomOf : Except LCErr Unit × AList × AList → AList
  | (.error (.overQuota _ _ h), _, _) => h
  | _ => []

/-!
DbQuotaDriver.limit_check.  pq and uq are the resolved project and user
limits from _get_quotas (dictionaries over the keys of values); pproj is
the raw per-project quota dictionary objects.Quotas.get_all_by_project,
used only for the headroom computation.
-/

def limit_check (resOk : Nat → Bool) (pq uq : Nat → Int) (pproj : AList)
    (values : AList) : Except LCErr Unit :=
  match (keysOf values).find? (fun k => !resOk k) with
  | some k => .error (.invalidMethod k)
  | none =>
  let unders := (values.filter fun p => decide (p.2 < 0)).map (·.1)
  if !unders.isEmpty then .error (.invalidQuotaValue (sortNat unders))
  else
    let overs := (values.filter fun kv =>
        (decide (0 ≤ pq kv.1) && decide (pq kv.1 < kv.2)) ||
        (decide (0 ≤ uq kv.1) && decide (uq kv.1 < kv.2))).map (·.1)
    if overs.isEmpty then .ok ()
    else
      let quotas := values.map fun kv => (kv.1, pq kv.1)
      let headroom := overs.map fun k =>
        (k, match lookupD pproj k with
            | some p => min (pq k) p
            | none => pq k)
      .error (.overQuota (sortNat overs) quotas headroom)

/-!
DbQuotaDriver.reserve and the store-level reservation step.

The quota usage counters live in the external store; a counter carries
the committed consumption (in_use) and the not-yet-finalized reserved
amount.
-/

structure Counter where
  in_use : Int
  reserved : Int
deriving Repr, DecidableEq

abbrev CounterMap := List (Nat × Counter)

def getCounter (c : CounterMap) (k : Nat) : Counter :=
  (lookupD c k).getD ⟨0, 0⟩

def setCounter (c : CounterMap) (k : Nat) (v : Counter) : CounterMap :=
  dictInsert c k v

/-- Limit test of the store step for one resource: a delta is refused
when the limit is non-negative and current usage plus already-reserved
amount plus the delta exceeds it. -/
def overCheckB (lim : Int) (c : Counter) (d : Int) : Bool :=
  decide (0 ≤ lim) && decide (lim < c.in_use + c.reserved + d)

def reserveOk (c : CounterMap) (lim : Nat → Int) (deltas : AList) : Bool :=
  deltas.all fun kd => !overCheckB (lim kd.1) (getCounter c kd.1) kd.2

def addReserved (c : Counter) (d : Int) : Counter :=
  ⟨c.in_use, c.reserved + d⟩

def applyDeltas (c : CounterMap) (deltas : AList) : CounterMap :=
  deltas.foldl (fun acc kd => setCounter acc kd.1 (addReserved (getCounter acc kd.1) kd.2)) c

/-- Modelled from the spec: db.quota_reserve (the Store's atomic_reserve)
is not part of the sources; per the spec it is one atomic step that reads
current usage plus reserved amounts, adds the requested deltas, compares
against both the project-scope and the user-scope limits, and only on
success writes the updated counters, with no partial state written on
failure. -/
def quota_reserve (projC userC : CounterMap) (pq uq : Nat → Int)
    (deltas : AList) : Option (CounterMap × CounterMap) :=
  if reserveOk projC pq deltas && reserveOk userC uq deltas then
    some (applyDeltas projC deltas, applyDeltas userC deltas)
  else none

/-- Expire argument of reserve: absent, a plain number of seconds, a
duration, an absolute instant, or a value of any other type. -/
inductive ExpireArg where
  | noval
  | secs (n : Int)
  | dur (n : Int)
  | abs (t : Int)
  | other
deriving Repr, DecidableEq

/-- Expiration resolution at the top of reserve: an absent value falls
back to the configured number of seconds, numbers and durations are added
to the current time, an absolute instant stands, and anything else is
InvalidReservationExpiration (modelled as no result). -/
def resolve_expire (conf_expire : Int) (now : Int) : ExpireArg → Option Int
  | .noval => some (now + conf_expire)
  | .secs n => some (now + n)
  | .dur n => some (now + n)
  | .abs t => some t
  | .other => none

inductive ReserveErr where
  | invalidMethod (res : Nat)
  | invalidReservationExpiration
  | overQuota
deriving Repr, DecidableEq

/-- DbQuotaDriver.reserve: method validation, expiration resolution, the
resolved project and user limits for the requested keys (pq, uq, from
_get_quotas), then the single store call.  The result carries the new
counter states and the reservation expiry. -/
def reserve (resOk : Nat → Bool) (conf_expire : Int) (now : Int)
    (pq uq : Nat → Int) (projC userC : CounterMap) (deltas : AList)
    (expire : ExpireArg) : Except ReserveErr (CounterMap × CounterMap × Int) :=
  match (keysOf deltas).find? (fun k => !resOk k) with
  | some k => .error (.invalidMethod k)
  | none =>
  match resolve_expire conf_expire now expire with
  | none => .error .invalidReservationExpiration
  | some t =>
    match quota_reserve projC userC pq uq deltas with
    | none => .error .overQuota
    | some s => .ok (s.1, s.2, t)

/-!
Limit and usage assembly: DbQuotaDriver.get_defaults, _process_quotas,
get_user_quotas, get_project_quotas and get_settable_quotas.  The
external reads are parameters: quotas is the explicit per-scope limit
dictionary, class_quotas the active quota class's limits (empty when no
class applies), default_class the _DEFAULT_QUOTA_NAME class, resDefault
the per-resource configured default, usages maps a resource to its
counted in_use, and all_quotas lists every per-user quota row
(resource, hard_limit) of the project.
-/

structure ProcessedQuota where
  limit : Int
  in_use : Option Int
  reserved : Option Int
  remains : Option Int
deriving Repr, DecidableEq

def get_defaults (default_class : AList) (resDefault : Nat → Int)
    (resources : List Nat) : AList :=
  resources.map fun n => (n, getD default_class n (resDefault n))

/-- The remains pass at the end of _process_quotas: subtract each
per-user quota row's hard limit from the remains of its resource, when
that resource is present. -/
def remainsFold (base : List (Nat × ProcessedQuota))
    (all_quotas : List (Nat × Int)) : List (Nat × ProcessedQuota) :=
  all_quotas.foldl (fun acc q =>
    if containsKey acc q.1 then
      acc.map fun p =>
        if p.1 = q.1 then (p.1, { p.2 with remains := p.2.remains.map (· - q.2) })
        else p
    else acc) base

def process_quotas (resources : List Nat) (quotas class_quotas default_class : AList)
    (resDefault : Nat → Int) (defaults : Bool) (usages : AList)
    (all_quotas : List (Nat × Int)) (remains : Bool) :
    List (Nat × ProcessedQuota) :=
  let default_quotas := get_defaults default_class resDefault resources
  let base := (if defaults then resources
               else resources.filter (containsKey quotas)).map fun n =>
    let limit := getD quotas n (getD class_quotas n (getD default_quotas n 0))
    (n, { limit := limit
          in_use := if !usages.isEmpty then some (getD usages n 0) else none
          reserved := if !usages.isEmpty then some 0 else none
          remains := if remains then some limit else none : ProcessedQuota })
  if remains then remainsFold base all_quotas else base

/-- Per-user quota dictionary with project values as fallback defaults,
as built at the top of get_user_quotas. -/
def userQuotasMerged (setted db_proj : AList) : AList :=
  setted ++ db_proj.filter (fun p => !containsKey setted p.1)

def get_user_quotas (resources : List Nat) (setted db_proj class_quotas default_class : AList)
    (resDefault : Nat → Int) (usages_u : AList) : List (Nat × ProcessedQuota) :=
  process_quotas resources (userQuotasMerged setted db_proj) class_quotas
    default_class resDefault true usages_u [] false

def get_project_quotas (resources : List Nat) (db_proj class_quotas default_class : AList)
    (resDefault : Nat → Int) (usages_p : AList) (all_quotas : List (Nat × Int)) :
    List (Nat × ProcessedQuota) :=
  process_quotas resources db_proj class_quotas default_class resDefault true
    usages_p all_quotas true

structure SettableRange where
  minimum : Int
  maximum : Int
deriving Repr, DecidableEq

/-- DbQuotaDriver.get_settable_quotas.  The source reads value['in_use']
(and project remains) for every iterated resource; when the usage
snapshot dictionary is empty those keys are absent and the source raises
KeyError, modelled as no result.  The getD defaults below are never
reached under the emptiness guards. -/
def get_settable_quotas (resources : List Nat)
    (db_proj class_quotas default_class : AList) (resDefault : Nat → Int)
    (all_quotas : List (Nat × Int)) (usages_p : AList) (user : Bool)
    (setted : AList) (usages_u : AList) : Option (List (Nat × SettableRange)) :=
  let projP := get_project_quotas resources db_proj class_quotas default_class
    resDefault usages_p all_quotas
  if user then
    let userP := get_user_quotas resources setted db_proj class_quotas
      default_class resDefault usages_u
    if resources.isEmpty || !usages_u.isEmpty then
      some (userP.map fun p => (p.1,
        { minimum := (p.2.in_use).getD 0
          maximum := sum_quota_values
            (((lookupD projP p.1).bind (·.remains)).getD 0)
            (getD setted p.1 0) }))
    else none
  else
    if resources.isEmpty || !usages_p.isEmpty then
      some (projP.map fun p => (p.1,
        { minimum := max (sub_quota_values p.2.limit ((p.2.remains).getD 0))
            ((p.2.in_use).getD 0)
          maximum := -1 }))
    else none

/-- The effective limit the driver resolves for a resource: explicit
scope override, else quota-class limit, else the default-class value,
else the resource's configured default. -/
def resolved_limit (quotas class_quotas default_class : AList)
    (resDefault : Nat → Int) (n : Nat) : Int :=
  getD quotas n (getD class_quotas n (getD default_class n (resDefault n)))

/-- Sum of the hard limits of every per-user quota row for resource n. -/
def user_limits_sum (all_quotas : List (Nat × Int)) (n : Nat) : Int :=
  all_quotas.foldl (fun a q => if q.1 = n then a + q.2 else a) 0

/-!
NoopQuotaDriver.
-/

def noop_get_by_project_and_user (project_id user_id res : Nat) : Int := -1

def noop_get_by_project (project_id res : Nat) : Int := -1

def noop_get_by_class (quota_class res : Nat) : Int := -1

def noop_get_defaults (resources : List Nat) : AList :=
  resources.map fun n => (n, -1)

def noop_get_class_quotas (resources : List Nat) (quota_class : Nat) : AList :=
  resources.map fun n => (n, -1)

def noop_get_noop_quotas (resources : List Nat) (usages remains : Bool) :
    List (Nat × ProcessedQuota) :=
  resources.map fun n =>
    (n, { limit := -1
          in_use := if usages then some (-1) else none
          reserved := if usages then some (-1) else none
          remains := if remains then some (-1) else none })

def noop_get_user_quotas (resources : List Nat) (project_id user_id : Nat)
    (usages : Bool) : List (Nat × ProcessedQuota) :=
  noop_get_noop_quotas resources usages false

def noop_get_project_quotas (resources : List Nat) (project_id : Nat)
    (usages remains : Bool) : List (Nat × ProcessedQuota) :=
  noop_get_noop_quotas resources usages remains

def noop_get_settable_quotas (resources : List Nat) :
    List (Nat × SettableRange) :=
  resources.map fun n => (n, { minimum := 0, maximum := -1 })

def noop_reserve (deltas : AList) (expire : ExpireArg) : List Nat :=
  []

/-!
QuotaEngine resource catalog.
-/

inductive ResourceKind where
  | absolute
  | reservable
  | countable
deriving Repr, DecidableEq

structure Resource where
  name : Nat
  kind : ResourceKind
  flag : Option Nat
deriving Repr, DecidableEq

abbrev Catalog := List (Nat × Resource)

def register_resource (c : Catalog) (r : Resource) : Catalog :=
  dictInsert c r.name r

def register_resources (c : Catalog) (rs : List Resource) : Catalog :=
  rs.foldl register_resource c

/-! Dictionary lemmas. -/

@[simp]
theorem keysOf_nil : keysOf ([] : List (Nat × α)) = [] := rfl

@[simp]
theorem keysOf_cons (p : Nat × α) (t : List (Nat × α)) :
    keysOf (p :: t) = p.1 :: keysOf t := rfl

theorem lookupD_eq_none (d : List (Nat × α)) (k : Nat) (h : k ∉ keysOf d) :
    lookupD d k = none := by
  induction d with
  | nil => rfl
  | cons p t ih =>
      obtain ⟨k', v⟩ := p
      simp only [keysOf_cons, List.mem_cons, not_or] at h
      have h1 : ¬ k' = k := fun hk => h.1 hk.symm
      simp only [lookupD, if_neg h1]
      exact ih h.2

theorem mem_keysOf_of_lookupD {d : List (Nat × α)} {k : Nat} {v : α}
    (h : lookupD d k = some v) : k ∈ keysOf d := by
  by_contra hk
  rw [lookupD_eq_none d k hk] at h
  exact Option.noConfusion h

theorem containsKey_eq_true_iff (d : List (Nat × α)) (k : Nat) :
    containsKey d k = true ↔ k ∈ keysOf d := by
  induction d with
  | nil => simp [containsKey, lookupD]
  | cons p t ih =>
      obtain ⟨k', v⟩ := p
      by_cases hk : k' = k
      · simp [containsKey, lookupD, hk]
      · simp only [containsKey, lookupD, if_neg hk, keysOf_cons, List.mem_cons]
        simp only [containsKey] at ih
        rw [ih]
        have : ¬ k = k' := fun h => hk h.symm
        tauto

theorem containsKey_eq_false_iff (d : List (Nat × α)) (k : Nat) :
    containsKey d k = false ↔ k ∉ keysOf d := by
  rw [← Bool.not_eq_true, not_iff_not]
  exact containsKey_eq_true_iff d k

theorem mem_of_lookupD_eq_some {d : List (Nat × α)} {k : Nat} {v : α}
    (h : lookupD d k = some v) : (k, v) ∈ d := by
  induction d with
  | nil => exact Option.noConfusion h
  | cons p t ih =>
      obtain ⟨k', v'⟩ := p
      by_cases hk : k' = k
      · simp only [lookupD, if_pos hk] at h
        injection h with h
        exact List.mem_cons.mpr (Or.inl (by rw [hk, h]))
      · simp only [lookupD, if_neg hk] at h
        exact List.mem_cons.mpr (Or.inr (ih h))

theorem lookupD_filter (d : List (Nat × α)) (f : Nat → Bool) (k : Nat) :
    lookupD (d.filter fun p => f p.1) k = if f k then lookupD d k else none := by
  induction d with
  | nil => simp [lookupD]
  | cons p t ih =>
      obtain ⟨k', v⟩ := p
      by_cases hf : f k'
      · by_cases hk : k' = k
        · subst hk
          simp [List.filter_cons, hf, lookupD]
        · simp [List.filter_cons, hf, lookupD, hk, ih]
      · by_cases hk : k' = k
        · subst hk
          simp only [Bool.not_eq_true] at hf
          simp [List.filter_cons, hf, ih]
        · simp [List.filter_cons, hf, lookupD, hk, ih]

theorem lookupD_map_mk (g : Nat → α) (l : List Nat) (k : Nat) :
    lookupD (l.map fun a => (a, g a)) k = if k ∈ l then some (g k) else none := by
  induction l with
  | nil => simp [lookupD]
  | cons a t ih =>
      by_cases hk : a = k
      · subst hk
        simp [lookupD]
      · have hk' : ¬ k = a := fun h => hk h.symm
        rw [List.map_cons]
        simp only [lookupD, if_neg hk, ih, List.mem_cons]
        by_cases hm : k ∈ t
        · simp [hm]
        · simp [hm, hk']

theorem lookupD_map_keyed (g : Nat × α → β) (d : List (Nat × α)) (k : Nat) :
    lookupD (d.map fun p => (p.1, g p)) k = (lookupD d k).map (fun v => g (k, v)) := by
  induction d with
  | nil => simp [lookupD]
  | cons p t ih =>
      obtain ⟨k', v⟩ := p
      by_cases hk : k' = k
      · subst hk
        simp [lookupD]
      · simp [lookupD, hk, ih]

theorem keysOf_map_keyed (g : Nat × α → β) (d : List (Nat × α)) :
    keysOf (d.map fun p => (p.1, g p)) = keysOf d := by
  induction d with
  | nil => rfl
  | cons p t ih => simp only [List.map_cons, keysOf_cons, ih]

theorem lookupD_dictInsert (d : List (Nat × α)) (k : Nat) (v : α) (k' : Nat) :
    lookupD (dictInsert d k v) k' = if k = k' then some v else lookupD d k' := by
  induction d with
  | nil => simp [dictInsert, lookupD]
  | cons p t ih =>
      obtain ⟨k0, v0⟩ := p
      by_cases hk : k0 = k
      · subst hk
        by_cases hk' : k0 = k'
        · simp [dictInsert, lookupD, hk']
        · simp [dictInsert, lookupD, hk']
      · by_cases hk' : k0 = k'
        · subst hk'
          have : ¬ k = k0 := fun h => hk h.symm
          simp [dictInsert, hk, lookupD, this]
        · simp [dictInsert, hk, lookupD, hk', ih]

theorem keysOf_dictInsert (d : List (Nat × α)) (k : Nat) (v : α) :
    keysOf (dictInsert d k v) =
      if containsKey d k then keysOf d else keysOf d ++ [k] := by
  induction d with
  | nil => simp [dictInsert, containsKey, lookupD]
  | cons p t ih =>
      obtain ⟨k0, v0⟩ := p
      by_cases hk : k0 = k
      · subst hk
        simp [dictInsert, containsKey, lookupD]
      · simp only [dictInsert, if_neg hk, keysOf_cons, containsKey, lookupD,
          if_neg hk]
        simp only [containsKey] at ih
        by_cases hc : (lookupD t k).isSome
        · rw [if_pos hc] at ih
          simp [hc, ih]
        · simp only [Bool.not_eq_true] at hc
          rw [if_neg (by simp [hc])] at ih
          simp [hc, ih]

theorem nodup_keysOf_dictInsert (d : List (Nat × α)) (k : Nat) (v : α)
    (h : (keysOf d).Nodup) : (keysOf (dictInsert d k v)).Nodup := by
  rw [keysOf_dictInsert]
  by_cases hc : containsKey d k
  · simpa [hc] using h
  · have hk : k ∉ keysOf d := (containsKey_eq_false_iff d k).mp (by simpa using hc)
    simp only [hc, if_false, Bool.false_eq_true]
    simpa [List.nodup_append] using ⟨h, hk⟩

theorem mem_insertSorted (a k : Nat) (t : List Nat) :
    a ∈ insertSorted k t ↔ a = k ∨ a ∈ t := by
  induction t with
  | nil => simp [insertSorted]
  | cons b t ih =>
      by_cases hb : k ≤ b
      · simp [insertSorted, hb]
      · simp only [insertSorted, if_neg hb, List.mem_cons, ih]
        tauto

theorem mem_sortNat (a : Nat) (l : List Nat) : a ∈ sortNat l ↔ a ∈ l := by
  induction l with
  | nil => simp [sortNat]
  | cons b t ih =>
      simp only [sortNat, List.foldr_cons] at ih ⊢
      rw [mem_insertSorted]
      simp [ih]

/-! Structural lemmas about limit_check_project_and_user. -/

theorem filter_congr_mem {d : List (Nat × α)} {f g : Nat × α → Bool}
    (h : ∀ p ∈ d, f p = g p) : d.filter f = d.filter g := by
  induction d with
  | nil => rfl
  | cons p t ih =>
      rw [List.filter_cons, List.filter_cons, h p (List.mem_cons_self p t),
        ih (fun q hq => h q (List.mem_cons_of_mem p hq))]

theorem filter_filter_pair (d : List (Nat × α)) (f g : Nat × α → Bool) :
    (d.filter f).filter g = d.filter fun p => f p && g p := by
  induction d with
  | nil => rfl
  | cons p t ih =>
      by_cases hf : f p
      · by_cases hg : g p
        · simp [List.filter_cons, hf, hg, ih]
        · simp [List.filter_cons, hf, hg, ih]
      · simp [List.filter_cons, hf, ih]

theorem foldl_popKey_eq_filter (ks : List Nat) (d : List (Nat × α)) :
    ks.foldl popKey d = d.filter fun p => decide (p.1 ∉ ks) := by
  induction ks generalizing d with
  | nil => simp
  | cons k t ih =>
      rw [List.foldl_cons]
      show t.foldl popKey (popKey d k) = _
      rw [ih, popKey, filter_filter_pair]
      have hfun : ∀ p : Nat × α,
          ((p.1 != k) && decide (p.1 ∉ t)) = decide (p.1 ∉ k :: t) := by
        intro p
        by_cases h1 : p.1 = k
        · simp [h1]
        · by_cases h2 : p.1 ∈ t <;> simp [h1, h2]
      exact filter_congr_mem (fun p _ => hfun p)

theorem mem_mergeKeys (pv uv : AList) (k : Nat) :
    k ∈ mergeKeys pv uv ↔
      (k ∈ keysOf pv ∧ k ∉ keysOf uv) ∨ (k ∈ keysOf uv ∧ k ∉ keysOf pv) := by
  simp only [mergeKeys, List.mem_append, List.mem_filter, Bool.not_eq_true',
    containsKey_eq_false_iff]

theorem mem_allKeys (pv uv : AList) (k : Nat) :
    k ∈ allKeys pv uv ↔ k ∈ keysOf pv ∨ k ∈ keysOf uv := by
  simp only [allKeys, List.mem_append, List.mem_filter, Bool.not_eq_true',
    containsKey_eq_false_iff]
  tauto

theorem getD_mergedQuotas (pq uq : Nat → Int) (pv uv : AList) (k : Nat)
    (h : k ∈ allKeys pv uv) :
    getD (mergedQuotasOf pq uq pv uv) k 0 = min (pq k) (uq k) := by
  simp [getD, mergedQuotasOf, lookupD_map_mk, h]

theorem getD_projDict (pq : Nat → Int) (pv uv : AList) (k : Nat)
    (h : k ∈ allKeys pv uv) : getD (projDict pq pv uv) k 0 = pq k := by
  simp [getD, projDict, lookupD_map_mk, h]

theorem getD_userDict (uq : Nat → Int) (pv uv : AList) (k : Nat)
    (h : k ∈ allKeys pv uv) : getD (userDict uq pv uv) k 0 = uq k := by
  simp [getD, userDict, lookupD_map_mk, h]

theorem pvAfter_eq (pv uv : AList) :
    pvAfter pv uv = pv.filter fun p => containsKey uv p.1 := by
  rw [pvAfter, foldl_popKey_eq_filter]
  apply filter_congr_mem
  intro p hp
  have hpk : p.1 ∈ keysOf pv := by
    simp only [keysOf, List.mem_map]
    exact ⟨p, hp, rfl⟩
  by_cases hm : p.1 ∈ keysOf uv
  · have h1 : p.1 ∉ mergeKeys pv uv := by
      rw [mem_mergeKeys]
      tauto
    simp [h1, (containsKey_eq_true_iff uv p.1).mpr hm]
  · have h1 : p.1 ∈ mergeKeys pv uv := (mem_mergeKeys pv uv p.1).mpr (Or.inl ⟨hpk, hm⟩)
    simp [h1, (containsKey_eq_false_iff uv p.1).mpr hm]

theorem uvAfter_eq (pv uv : AList) :
    uvAfter pv uv = uv.filter fun p => containsKey pv p.1 := by
  rw [uvAfter, foldl_popKey_eq_filter]
  apply filter_congr_mem
  intro p hp
  have hpk : p.1 ∈ keysOf uv := by
    simp only [keysOf, List.mem_map]
    exact ⟨p, hp, rfl⟩
  by_cases hm : p.1 ∈ keysOf pv
  · have h1 : p.1 ∉ mergeKeys pv uv := by
      rw [mem_mergeKeys]
      tauto
    simp [h1, (containsKey_eq_true_iff pv p.1).mpr hm]
  · have h1 : p.1 ∈ mergeKeys pv uv := (mem_mergeKeys pv uv p.1).mpr (Or.inr ⟨hpk, hm⟩)
    simp [h1, (containsKey_eq_false_iff pv p.1).mpr hm]

theorem bothScan_foldl (pq uq : Nat → Int) (pv2 : AList) (l : List (Nat × Int))
    (acc : List Nat) (b : Bool) :
    l.foldl (bothStep pq uq pv2) (acc, b) =
      (acc ++ (l.filter (bothCondB pq uq pv2)).map (·.1),
       b || l.any (userOnlyB pq uq pv2)) := by
  induction l generalizing acc b with
  | nil => simp
  | cons kv t ih =>
      rw [List.foldl_cons]
      by_cases hp : projViolB pq pv2 kv
      · have hstep : bothStep pq uq pv2 (acc, b) kv = (acc ++ [kv.1], b) := by
          simp [bothStep, hp]
        rw [hstep, ih]
        simp [bothCondB, userOnlyB, hp, List.filter_cons, List.any_cons]
      · by_cases hu : userViolB uq kv
        · have hstep : bothStep pq uq pv2 (acc, b) kv = (acc ++ [kv.1], true) := by
            simp [bothStep, hp, hu]
          rw [hstep, ih]
          simp [bothCondB, userOnlyB, hp, hu, List.filter_cons, List.any_cons]
        · have hstep : bothStep pq uq pv2 (acc, b) kv = (acc, b) := by
            simp [bothStep, hp, hu]
          rw [hstep, ih]
          simp [bothCondB, userOnlyB, hp, hu, List.filter_cons, List.any_cons]

theorem bothScan_eq (pq uq : Nat → Int) (pv2 uv2 : AList) :
    bothScan pq uq pv2 uv2 =
      ((uv2.filter (bothCondB pq uq pv2)).map (·.1),
       uv2.any (userOnlyB pq uq pv2)) := by
  rw [bothScan, bothScan_foldl]
  simp

theorem mem_mergedOvers (pq uq : Nat → Int) (pv uv : AList) (k : Nat) :
    k ∈ mergedOvers pq uq pv uv ↔
      k ∈ mergeKeys pv uv ∧
      0 ≤ getD (mergedQuotasOf pq uq pv uv) k 0 ∧
      getD (mergedQuotasOf pq uq pv uv) k 0 <
        (if getD pv k 0 != 0 then getD pv k 0 else getD uv k 0) := by
  unfold mergedOvers mergedValuesOf
  constructor
  · intro h
    rcases List.mem_map.mp h with ⟨kv, hkv, hfst⟩
    rcases List.mem_filter.mp hkv with ⟨hmem, hcond⟩
    rcases List.mem_map.mp hmem with ⟨k0, hk0, hkv0⟩
    subst hkv0
    simp only at hfst
    subst hfst
    simp only [Bool.and_eq_true, decide_eq_true_eq] at hcond
    exact ⟨hk0, hcond.1, hcond.2⟩
  · rintro ⟨hk, h1, h2⟩
    refine List.mem_map.mpr ⟨(k, if getD pv k 0 != 0 then getD pv k 0 else getD uv k 0),
      List.mem_filter.mpr ⟨List.mem_map.mpr ⟨k, hk, rfl⟩, ?_⟩, rfl⟩
    simp only [Bool.and_eq_true, decide_eq_true_eq]
    exact ⟨h1, h2⟩

theorem lcpau_validation (resOk : Nat → Bool) (pq uq : Nat → Int) (pv uv : AList)
    (hrp : ∀ k ∈ keysOf pv, resOk k = true) (hru : ∀ k ∈ keysOf uv, resOk k = true)
    (hne : ¬(pv = [] ∧ uv = []))
    (hp0 : ∀ p ∈ pv, 0 ≤ p.2) (hu0 : ∀ p ∈ uv, 0 ≤ p.2) :
    limit_check_project_and_user resOk pq uq pv uv =
      (lcpauChecks pq uq pv uv, pvAfter pv uv, uvAfter pv uv) := by
  have h1 : (keysOf pv).find? (fun k => !resOk k) = none :=
    List.find?_eq_none.mpr (fun k hk => by simp [hrp k hk])
  have h2 : (keysOf uv).find? (fun k => !resOk k) = none :=
    List.find?_eq_none.mpr (fun k hk => by simp [hru k hk])
  have h3 : (pv.isEmpty && uv.isEmpty) = false := by
    rcases not_and_or.mp hne with h | h
    · have : pv.isEmpty = false := by
        cases pv with
        | nil => exact absurd rfl h
        | cons a t => rfl
      simp [this]
    · have : uv.isEmpty = false := by
        cases uv with
        | nil => exact absurd rfl h
        | cons a t => rfl
      simp [this]
  have h4 : (pv.filter fun p => decide (p.2 < 0)) = [] := by
    rw [List.filter_eq_nil_iff]
    intro p hp
    simpa using not_lt.mpr (hp0 p hp)
  have h5 : (uv.filter fun p => decide (p.2 < 0)) = [] := by
    rw [List.filter_eq_nil_iff]
    intro p hp
    simpa using not_lt.mpr (hu0 p hp)
  rw [limit_check_project_and_user, h1, h2]
  simp [h3, h4, h5]

@[simp]
theorem oversOf_over (o : List Nat) (q h : AList) (a b : AList) :
    oversOf (.error (.overQuota o q h), a, b) = o := rfl

@[simp]
theorem oversOf_ok (a b : AList) : oversOf (.ok (), a, b) = [] := rfl

@[simp]
theorem quotasOf_over (o : List Nat) (q h : AList) (a b : AList) :
    quotasOf (.error (.overQuota o q h), a, b) = q := rfl

@[simp]
theorem headroomOf_over (o : List Nat) (q h : AList) (a b : AList) :
    headroomOf (.error (.overQuota o q h), a, b) = h := rfl

theorem lcpauChecks_eq (pq uq : Nat → Int) (pv uv : AList) :
    lcpauChecks pq uq pv uv =
      if (mergedOvers pq uq pv uv).isEmpty then
        (if (((uvAfter pv uv).filter (bothCondB pq uq (pvAfter pv uv))).map (·.1)).isEmpty
         then .ok ()
         else
           .error (.overQuota
             (sortNat (((uvAfter pv uv).filter (bothCondB pq uq (pvAfter pv uv))).map (·.1)))
             (if (uvAfter pv uv).any (userOnlyB pq uq (pvAfter pv uv))
              then userDict uq pv uv else projDict pq pv uv)
             ((((uvAfter pv uv).filter (bothCondB pq uq (pvAfter pv uv))).map (·.1)).map
               fun k => (k, getD (if (uvAfter pv uv).any (userOnlyB pq uq (pvAfter pv uv))
                  then userDict uq pv uv else projDict pq pv uv) k 0))))
      else
        .error (.overQuota (sortNat (mergedOvers pq uq pv uv))
          (mergedQuotasOf pq uq pv uv)
          ((mergedOvers pq uq pv uv).map fun k =>
            (k, getD (mergedQuotasOf pq uq pv uv) k 0))) := by
  simp only [lcpauChecks, bothScan_eq]

/-!
Claim C2.  The claim says an OverQuota from limit_check_project_and_user
is raised only after every requested key in both the merged single-scope
group and the both-scopes group has been evaluated, carrying the complete
set of violations of both groups.  In the source the merged group is
checked and raised first, before the loop over the both-scopes group ever
runs, so a merged-group violation hides every both-scopes violation.
-/

/-- C2 counterexample: with project_values {1: 5, 2: 7}, user_values
{2: 9}, limits pq = {1: 3, 2: 1} and uq = {1: 3, 2: 100}, key 1 is in the
merged group and violates min(3, 3) = 3 < 5, while key 2 is in both
dictionaries and violates its project limit 1 < 7; the raised OverQuota
names only key 1, so the error does not carry the complete set of
violations from both groups. -/
theorem C2_counterexample :
    oversOf (limit_check_project_and_user (fun _ => true)
        (fun k => if k = 1 then 3 else 1) (fun k => if k = 1 then 3 else 100)
        [(1, 5), (2, 7)] [(2, 9)]) = [1] ∧
    projViolB (fun k => if k = 1 then 3 else 1)
        (pvAfter [(1, 5), (2, 7)] [(2, 9)]) (2, 9) = true ∧
    (2 : Nat) ∉ oversOf (limit_check_project_and_user (fun _ => true)
        (fun k => if k = 1 then 3 else 1) (fun k => if k = 1 then 3 else 100)
        [(1, 5), (2, 7)] [(2, 9)]) := by
  decide

/-- C2 (amended): once validation passes, the raised OverQuota carries the
complete set of violations of the group it is raised from: when the merged
single-scope group has any violation, the error is raised after every
merged key has been evaluated and names exactly the sorted merged-group
violations, without evaluating the both-scopes group; only when the merged
group is clean does the error name exactly the sorted both-scopes
violations.  A merged key is a violation exactly when the minimum of the
two resolved limits is non-negative and below the merged value. -/
theorem C2_group_violation_collection (resOk : Nat → Bool) (pq uq : Nat → Int)
    (pv uv : AList)
    (hrp : ∀ k ∈ keysOf pv, resOk k = true)
    (hru : ∀ k ∈ keysOf uv, resOk k = true)
    (hne : ¬(pv = [] ∧ uv = []))
    (hp0 : ∀ p ∈ pv, 0 ≤ p.2) (hu0 : ∀ p ∈ uv, 0 ≤ p.2) :
    (mergedOvers pq uq pv uv ≠ [] →
      oversOf (limit_check_project_and_user resOk pq uq pv uv) =
        sortNat (mergedOvers pq uq pv uv)) ∧
    (mergedOvers pq uq pv uv = [] →
      oversOf (limit_check_project_and_user resOk pq uq pv uv) =
        sortNat (((uvAfter pv uv).filter
          (bothCondB pq uq (pvAfter pv uv))).map (·.1))) ∧
    (∀ k v, lookupD (mergedValuesOf pv uv) k = some v →
      (k ∈ mergedOvers pq uq pv uv ↔
        0 ≤ min (pq k) (uq k) ∧ min (pq k) (uq k) < v)) := by
  have hval := lcpau_validation resOk pq uq pv uv hrp hru hne hp0 hu0
  refine ⟨?_, ?_, ?_⟩
  · intro hmo
    have hemp : (mergedOvers pq uq pv uv).isEmpty = false := by
      cases h : mergedOvers pq uq pv uv with
      | nil => exact absurd h hmo
      | cons a t => rfl
    rw [hval, lcpauChecks_eq, hemp]
    simp
  · intro hmo
    rw [hval, lcpauChecks_eq, hmo]
    by_cases hbo : (((uvAfter pv uv).filter
        (bothCondB pq uq (pvAfter pv uv))).map (·.1)).isEmpty
    · rw [List.isEmpty_iff] at hbo
      simp [hbo, sortNat]
    · have hbo' : (((uvAfter pv uv).filter
          (bothCondB pq uq (pvAfter pv uv))).map (·.1)).isEmpty = false := by
        simpa using hbo
      simp [hbo']
  · intro k v hkv
    have hmem : k ∈ mergeKeys pv uv ∧
        (if getD pv k 0 != 0 then getD pv k 0 else getD uv k 0) = v := by
      unfold mergedValuesOf at hkv
      rw [lookupD_map_mk] at hkv
      by_cases hk : k ∈ mergeKeys pv uv
      · rw [if_pos hk] at hkv
        injection hkv with hkv
        exact ⟨hk, hkv⟩
      · rw [if_neg hk] at hkv
        exact Option.noConfusion hkv
    have hak : k ∈ allKeys pv uv := by
      rcases (mem_mergeKeys pv uv k).mp hmem.1 with h | h
      · exact (mem_allKeys pv uv k).mpr (Or.inl h.1)
      · exact (mem_allKeys pv uv k).mpr (Or.inr h.1)
    rw [mem_mergedOvers, getD_mergedQuotas pq uq pv uv k hak, hmem.2]
    tauto

/-- C2 witness: a merged-group violation at an explicit input, reported as
the amended theorem states. -/
theorem C2_group_violation_collection_witness :
    ((∀ k ∈ keysOf [((1 : Nat), (5 : Int))], (fun (_ : Nat) => true) k = true) ∧
     (∀ p ∈ [((1 : Nat), (5 : Int))], 0 ≤ p.2)) ∧
    (mergedOvers (fun _ => 3) (fun _ => 3) [(1, 5)] [] ≠ [] →
      oversOf (limit_check_project_and_user (fun _ => true) (fun _ => 3)
        (fun _ => 3) [(1, 5)] []) =
        sortNat (mergedOvers (fun _ => 3) (fun _ => 3) [(1, 5)] [])) := by
  refine ⟨by decide, ?_⟩
  exact (C2_group_violation_collection (fun _ => true) (fun _ => 3) (fun _ => 3)
    [(1, 5)] [] (by decide) (by decide) (by decide) (by decide) (by decide)).1

/-!
Claim C3.  The per-key order (project check first, user check only when
the project check passes) is real, but the attached quotas and headroom
are selected by one call-wide flag: if any key's violation is user-scoped
the user quota map is attached for every reported key, even for a key
whose own violation was project-scoped or violated in both scopes.
-/

/-- C3 counterexample: values 5 for keys 1 and 2 in both scopes, with
limits pq = {1: 10, 2: 2}, uq = {1: 3, 2: 1}.  Key 1 violates only its
user limit, key 2 violates both its project limit (2 < 5) and its user
limit (1 < 5); the claim requires key 2 to be reported with the project
limit 2, but the raised error reports headroom 1 for key 2, taken from
the user quota map selected by key 1's user-scoped violation. -/
theorem C3_counterexample :
    projViolB (fun k => if k = 1 then 10 else 2)
        (pvAfter [(1, 5), (2, 5)] [(1, 5), (2, 5)]) (2, 5) = true ∧
    userViolB (fun k => if k = 1 then 3 else 1) (2, 5) = true ∧
    getD (headroomOf (limit_check_project_and_user (fun _ => true)
        (fun k => if k = 1 then 10 else 2) (fun k => if k = 1 then 3 else 1)
        [(1, 5), (2, 5)] [(1, 5), (2, 5)])) 2 0 = 1 ∧
    ((1 : Int) ≠ (fun (k : Nat) => if k = 1 then (10 : Int) else 2) 2) := by
  decide

/-- C3 (amended): in the both-scopes loop each key's project value is
checked against the project limit first and the user value only when the
project check passes (so a key violated in both scopes counts as a
project-scoped violation); but the quota map attached to the error is
chosen once for the whole call: it is the user map exactly when at least
one key's violation is user-scoped, and the project map otherwise, and
every reported key's headroom is read from that one attached map. -/
theorem C3_scope_attribution (resOk : Nat → Bool) (pq uq : Nat → Int)
    (pv uv : AList)
    (hrp : ∀ k ∈ keysOf pv, resOk k = true)
    (hru : ∀ k ∈ keysOf uv, resOk k = true)
    (hne : ¬(pv = [] ∧ uv = []))
    (hp0 : ∀ p ∈ pv, 0 ≤ p.2) (hu0 : ∀ p ∈ uv, 0 ≤ p.2)
    (hmo : mergedOvers pq uq pv uv = []) :
    (∀ kv ∈ uvAfter pv uv, projViolB pq (pvAfter pv uv) kv = true →
       kv.1 ∈ oversOf (limit_check_project_and_user resOk pq uq pv uv)) ∧
    (((uvAfter pv uv).filter (bothCondB pq uq (pvAfter pv uv))).map (·.1) ≠ [] →
       quotasOf (limit_check_project_and_user resOk pq uq pv uv) =
         (if (uvAfter pv uv).any (userOnlyB pq uq (pvAfter pv uv))
          then userDict uq pv uv else projDict pq pv uv) ∧
       headroomOf (limit_check_project_and_user resOk pq uq pv uv) =
         (((uvAfter pv uv).filter (bothCondB pq uq (pvAfter pv uv))).map (·.1)).map
           (fun k => (k, getD (if (uvAfter pv uv).any (userOnlyB pq uq (pvAfter pv uv))
              then userDict uq pv uv else projDict pq pv uv) k 0))) := by
  have hval := lcpau_validation resOk pq uq pv uv hrp hru hne hp0 hu0
  have hbo : ∀ kv ∈ uvAfter pv uv, projViolB pq (pvAfter pv uv) kv = true →
      kv.1 ∈ ((uvAfter pv uv).filter (bothCondB pq uq (pvAfter pv uv))).map (·.1) := by
    intro kv hkv hviol
    refine List.mem_map.mpr ⟨kv, List.mem_filter.mpr ⟨hkv, ?_⟩, rfl⟩
    simp [bothCondB, hviol]
  constructor
  · intro kv hkv hviol
    have hmem := hbo kv hkv hviol
    have hne' : (((uvAfter pv uv).filter
        (bothCondB pq uq (pvAfter pv uv))).map (·.1)).isEmpty = false := by
      cases h : ((uvAfter pv uv).filter (bothCondB pq uq (pvAfter pv uv))).map (·.1) with
      | nil => rw [h] at hmem; exact absurd hmem (List.not_mem_nil kv.1)
      | cons a t => rfl
    rw [hval, lcpauChecks_eq, hmo]
    simp only [List.isEmpty_nil, if_true, hne', Bool.false_eq_true, if_false,
      oversOf_over]
    exact (mem_sortNat kv.1 _).mpr hmem
  · intro hne2
    have hne' : (((uvAfter pv uv).filter
        (bothCondB pq uq (pvAfter pv uv))).map (·.1)).isEmpty = false := by
      cases h : ((uvAfter pv uv).filter (bothCondB pq uq (pvAfter pv uv))).map (·.1) with
      | nil => exact absurd h hne2
      | cons a t => rfl
    rw [hval, lcpauChecks_eq, hmo]
    simp only [List.isEmpty_nil, if_true, hne', Bool.false_eq_true, if_false,
      quotasOf_over, headroomOf_over]
    exact ⟨trivial, trivial⟩

/-- C3 witness: a purely project-scoped violation at an explicit input;
the project map is attached and the violated key is reported. -/
theorem C3_scope_attribution_witness :
    (mergedOvers (fun _ => 2) (fun _ => 100) [(1, 5)] [(1, 5)] = []) ∧
    ((1, (5 : Int)) ∈ uvAfter [(1, 5)] [(1, 5)] ∧
     projViolB (fun _ => 2) (pvAfter [(1, 5)] [(1, 5)]) (1, 5) = true) ∧
    (1 : Nat) ∈ oversOf (limit_check_project_and_user (fun _ => true)
      (fun _ => 2) (fun _ => 100) [(1, 5)] [(1, 5)]) := by
  refine ⟨by decide, by decide, ?_⟩
  exact (C3_scope_attribution (fun _ => true) (fun _ => 2) (fun _ => 100)
    [(1, 5)] [(1, 5)] (by decide) (by decide) (by decide) (by decide)
    (by decide) (by decide)).1 (1, 5) (by decide) (by decide)

theorem mem_keysOf_of_mem {d : List (Nat × α)} {p : Nat × α} (h : p ∈ d) :
    p.1 ∈ keysOf d := by
  unfold keysOf
  exact List.mem_map.mpr ⟨p, h, rfl⟩

/-!
Claim C4.  Keys present in exactly one of the two value dictionaries are
merged and checked once against the minimum of the two resolved limits.
-/

/-- C4: a resource key present in exactly one of project_values and
user_values is checked against the minimum of the resolved project-scope
and user-scope limits; when that merged limit is non-negative and below
the value, the key is reported over with headroom equal to the merged
limit, and otherwise the key is never reported. -/
theorem C4_single_scope_min_check (resOk : Nat → Bool) (pq uq : Nat → Int)
    (pv uv : AList) (k : Nat) (v : Int)
    (hrp : ∀ k' ∈ keysOf pv, resOk k' = true)
    (hru : ∀ k' ∈ keysOf uv, resOk k' = true)
    (hne : ¬(pv = [] ∧ uv = []))
    (hp0 : ∀ p ∈ pv, 0 ≤ p.2) (hu0 : ∀ p ∈ uv, 0 ≤ p.2)
    (hone : (lookupD pv k = some v ∧ containsKey uv k = false) ∨
            (lookupD uv k = some v ∧ containsKey pv k = false)) :
    ((0 ≤ min (pq k) (uq k) ∧ min (pq k) (uq k) < v) →
       k ∈ oversOf (limit_check_project_and_user resOk pq uq pv uv) ∧
       lookupD (headroomOf (limit_check_project_and_user resOk pq uq pv uv)) k =
         some (min (pq k) (uq k))) ∧
    (¬(0 ≤ min (pq k) (uq k) ∧ min (pq k) (uq k) < v) →
       k ∉ oversOf (limit_check_project_and_user resOk pq uq pv uv)) := by
  have hval := lcpau_validation resOk pq uq pv uv hrp hru hne hp0 hu0
  have hkm : k ∈ mergeKeys pv uv := by
    rcases hone with ⟨h1, h2⟩ | ⟨h1, h2⟩
    · exact (mem_mergeKeys pv uv k).mpr (Or.inl ⟨mem_keysOf_of_lookupD h1,
        (containsKey_eq_false_iff uv k).mp h2⟩)
    · exact (mem_mergeKeys pv uv k).mpr (Or.inr ⟨mem_keysOf_of_lookupD h1,
        (containsKey_eq_false_iff pv k).mp h2⟩)
  have hak : k ∈ allKeys pv uv := by
    rcases (mem_mergeKeys pv uv k).mp hkm with h | h
    · exact (mem_allKeys pv uv k).mpr (Or.inl h.1)
    · exact (mem_allKeys pv uv k).mpr (Or.inr h.1)
  have hgv : (if getD pv k 0 != 0 then getD pv k 0 else getD uv k 0) = v := by
    rcases hone with ⟨h1, h2⟩ | ⟨h1, h2⟩
    · have hp : getD pv k 0 = v := by simp [getD, h1]
      by_cases hv : v = 0
      · have hu : getD uv k 0 = 0 := by
          simp [getD, lookupD_eq_none uv k ((containsKey_eq_false_iff uv k).mp h2)]
        rw [hp]
        simp [hv, hu]
      · rw [hp]
        simp [hv]
    · have hp : getD pv k 0 = 0 := by
        simp [getD, lookupD_eq_none pv k ((containsKey_eq_false_iff pv k).mp h2)]
      have hu : getD uv k 0 = v := by simp [getD, h1]
      rw [hp, hu]
      simp
  have hiff : k ∈ mergedOvers pq uq pv uv ↔
      0 ≤ min (pq k) (uq k) ∧ min (pq k) (uq k) < v := by
    rw [mem_mergedOvers, getD_mergedQuotas pq uq pv uv k hak, hgv]
    tauto
  constructor
  · intro hcond
    have hk : k ∈ mergedOvers pq uq pv uv := hiff.mpr hcond
    have hemp : (mergedOvers pq uq pv uv).isEmpty = false := by
      cases h : mergedOvers pq uq pv uv with
      | nil => rw [h] at hk; exact absurd hk (List.not_mem_nil k)
      | cons a t => rfl
    rw [hval, lcpauChecks_eq, hemp]
    simp only [Bool.false_eq_true, if_false, oversOf_over, headroomOf_over]
    refine ⟨(mem_sortNat k _).mpr hk, ?_⟩
    rw [lookupD_map_mk, if_pos hk, getD_mergedQuotas pq uq pv uv k hak]
  · intro hcond
    have hk : k ∉ mergedOvers pq uq pv uv := fun h => hcond (hiff.mp h)
    rw [hval, lcpauChecks_eq]
    by_cases hemp : (mergedOvers pq uq pv uv).isEmpty = true
    · rw [if_pos hemp]
      by_cases hbo : ((((uvAfter pv uv).filter
          (bothCondB pq uq (pvAfter pv uv))).map (·.1)).isEmpty) = true
      · rw [if_pos hbo]
        simp
      · rw [if_neg hbo]
        simp only [oversOf_over]
        intro hmem
        rw [mem_sortNat] at hmem
        rcases List.mem_map.mp hmem with ⟨kv, hkv, hfst⟩
        rcases List.mem_filter.mp hkv with ⟨hmem2, _⟩
        rw [uvAfter_eq] at hmem2
        rcases List.mem_filter.mp hmem2 with ⟨hmem3, hcont⟩
        rcases hone with ⟨h1, h2⟩ | ⟨h1, h2⟩
        · have hk2 : k ∈ keysOf uv := by
            rw [← hfst]
            exact mem_keysOf_of_mem hmem3
          exact absurd hk2 ((containsKey_eq_false_iff uv k).mp h2)
        · have hk2 : containsKey pv k = true := by
            rw [← hfst]
            exact hcont
          rw [h2] at hk2
          exact Bool.noConfusion hk2
    · rw [if_neg hemp]
      simp only [oversOf_over]
      intro hmem
      rw [mem_sortNat] at hmem
      exact hk hmem

/-- C4 witness: key 1 is only in project_values with value 4; the merged
limit min(3, 5) = 3 is exceeded and the key is reported with headroom 3. -/
theorem C4_single_scope_min_check_witness :
    ((lookupD [((1 : Nat), (4 : Int))] 1 = some 4 ∧
      containsKey [((2 : Nat), (1 : Int))] 1 = false) ∧
     (0 : Int) ≤ min 3 5 ∧ min (3 : Int) 5 < 4) ∧
    ((1 : Nat) ∈ oversOf (limit_check_project_and_user (fun _ => true)
        (fun _ => 3) (fun _ => 5) [(1, 4)] [(2, 1)]) ∧
     lookupD (headroomOf (limit_check_project_and_user (fun _ => true)
        (fun _ => 3) (fun _ => 5) [(1, 4)] [(2, 1)])) 1 = some (min 3 5)) := by
  refine ⟨by decide, ?_⟩
  exact (C4_single_scope_min_check (fun _ => true) (fun _ => 3) (fun _ => 5)
    [(1, 4)] [(2, 1)] 1 4 (by decide) (by decide) (by decide) (by decide)
    (by decide) (Or.inl ⟨by decide, by decide⟩)).1 (by decide)

/-!
Claim C10.  The pops of the single-scope keys happen after all input
validation, so a validation failure returns with the caller's
dictionaries untouched; only once validation passes do the dictionaries
end up holding exactly the keys originally present in both.
-/

/-- C10 counterexample: project_values {1: -1} and user_values {2: 0}
fail the negative-value validation, and the call raises InvalidQuotaValue
with both dictionaries unchanged: key 1 is present in exactly one of the
two dictionaries yet is still there after the call, contradicting the
claim for calls that raise. -/
theorem C10_counterexample :
    limit_check_project_and_user (fun _ => true) (fun _ => -1) (fun _ => -1)
        [(1, -1)] [(2, 0)] =
      (.error (.invalidQuotaValue [1]), [(1, -1)], [(2, 0)]) ∧
    containsKey [((2 : Nat), (0 : Int))] 1 = false := by
  decide

/-- C10 (amended): when the call passes input validation (valid resources,
at least one non-empty dictionary, no negative values), the caller's
project_values and user_values retain exactly the keys originally present
in both dictionaries after the call, whether it returns or raises
OverQuota; when validation fails the dictionaries are returned unchanged
instead. -/
theorem C10_frame_effect (resOk : Nat → Bool) (pq uq : Nat → Int)
    (pv uv : AList)
    (hrp : ∀ k ∈ keysOf pv, resOk k = true)
    (hru : ∀ k ∈ keysOf uv, resOk k = true)
    (hne : ¬(pv = [] ∧ uv = []))
    (hp0 : ∀ p ∈ pv, 0 ≤ p.2) (hu0 : ∀ p ∈ uv, 0 ≤ p.2) :
    (limit_check_project_and_user resOk pq uq pv uv).2.1 =
      pv.filter (fun p => containsKey uv p.1) ∧
    (limit_check_project_and_user resOk pq uq pv uv).2.2 =
      uv.filter (fun p => containsKey pv p.1) := by
  rw [lcpau_validation resOk pq uq pv uv hrp hru hne hp0 hu0]
  exact ⟨pvAfter_eq pv uv, uvAfter_eq pv uv⟩

/-- C10 witness: key 1 is popped from project_values and the intersection
key 2 is kept, at an explicit input. -/
theorem C10_frame_effect_witness :
    (¬([((1 : Nat), (5 : Int)), (2, 7)] = ([] : AList) ∧ [((2 : Nat), (9 : Int))] = ([] : AList))) ∧
    (limit_check_project_and_user (fun _ => true) (fun _ => 1) (fun _ => 1)
        [(1, 5), (2, 7)] [(2, 9)]).2.1 =
      ([(1, 5), (2, 7)] : AList).filter (fun p => containsKey [((2 : Nat), (9 : Int))] p.1) := by
  refine ⟨by decide, ?_⟩
  exact (C10_frame_effect (fun _ => true) (fun _ => 1) (fun _ => 1)
    [(1, 5), (2, 7)] [(2, 9)] (by decide) (by decide) (by decide) (by decide)
    (by decide)).1

/-!
Claim C6.  The helpers do not test equality with -1: _is_unlimited_value
treats every value at most -1 as unlimited, so e.g. -2 is absorbed too.
-/

/-- C6 counterexample: neither -2 nor 0 equals -1, yet the helpers return
-1 instead of the claimed -2 + 0 and -2 - 0. -/
theorem C6_counterexample :
    sum_quota_values (-2) 0 = -1 ∧ sub_quota_values (-2) 0 = -1 ∧
    ¬((-2 : Int) = -1 ∨ (0 : Int) = -1) ∧
    ((-1 : Int) ≠ -2 + 0) ∧ ((-1 : Int) ≠ -2 - 0) := by
  decide

/-- C6 (amended): if either argument is at most -1 (the source's
unlimited test is v <= -1, not v = -1) both helpers return -1; when both
arguments exceed -1 they return the exact sum and difference. -/
theorem C6_unlimited_absorption (v1 v2 : Int) :
    ((v1 ≤ -1 ∨ v2 ≤ -1) →
      sum_quota_values v1 v2 = -1 ∧ sub_quota_values v1 v2 = -1) ∧
    (-1 < v1 → -1 < v2 →
      sum_quota_values v1 v2 = v1 + v2 ∧ sub_quota_values v1 v2 = v1 - v2) := by
  constructor
  · intro h
    have hb : (is_unlimited_value v1 || is_unlimited_value v2) = true := by
      rcases h with h | h <;> simp [is_unlimited_value, UNLIMITED_VALUE, h]
    rw [sum_quota_values, sub_quota_values, if_pos hb, if_pos hb]
    exact ⟨rfl, rfl⟩
  · intro h1 h2
    have hb : (is_unlimited_value v1 || is_unlimited_value v2) = false := by
      simp only [is_unlimited_value, UNLIMITED_VALUE, Bool.or_eq_false_iff,
        decide_eq_false_iff_not, not_le]
      exact ⟨h1, h2⟩
    rw [sum_quota_values, sub_quota_values, hb]
    exact ⟨rfl, rfl⟩

/-- C6 witness: absorption at (-1, 5) and exact arithmetic at (2, 3). -/
theorem C6_unlimited_absorption_witness :
    ((-1 : Int) ≤ -1) ∧
    (sum_quota_values (-1) 5 = -1 ∧ sub_quota_values (-1) 5 = -1) ∧
    ((-1 : Int) < 2) ∧ ((-1 : Int) < 3) ∧
    (sum_quota_values 2 3 = 2 + 3 ∧ sub_quota_values 2 3 = 2 - 3) :=
  ⟨by decide, (C6_unlimited_absorption (-1) 5).1 (Or.inl (by decide)),
   by decide, by decide, (C6_unlimited_absorption 2 3).2 (by decide) (by decide)⟩

/-!
Claim C7.  limit_check rejects negative values with InvalidQuotaValue
before touching the store; reserve performs no such check at all and
passes negative deltas straight to the store call.
-/

/-- C7 counterexample: reserve with the negative delta -1 for resource 1
does not raise InvalidQuotaValue; it proceeds to the store step and
returns a successful reservation that records the negative delta. -/
theorem C7_counterexample :
    reserve (fun _ => true) 86400 0 (fun _ => -1) (fun _ => -1) [] []
        [(1, -1)] .noval =
      .ok ([(1, ⟨0, -1⟩)], [(1, ⟨0, -1⟩)], 86400) ∧ ((-1 : Int) < 0) := by
  decide

/-- C7 (amended): for limit_check, a negative value always yields
InvalidQuotaValue carrying the sorted offending resource names, and the
outcome is independent of the resolved limits and the per-project quota
dictionary, i.e. decided before any store interaction; reserve performs
no negative-delta validation. -/
theorem C7_negative_value_validation (resOk : Nat → Bool) (pq uq : Nat → Int)
    (pproj : AList) (values : AList)
    (hr : ∀ k ∈ keysOf values, resOk k = true)
    (hneg : (values.filter fun p => decide (p.2 < 0)) ≠ []) :
    limit_check resOk pq uq pproj values =
      .error (.invalidQuotaValue
        (sortNat ((values.filter fun p => decide (p.2 < 0)).map (·.1)))) := by
  have h1 : (keysOf values).find? (fun k => !resOk k) = none :=
    List.find?_eq_none.mpr (fun k hk => by simp [hr k hk])
  have h2 : ((values.filter fun p => decide (p.2 < 0)).map (·.1)).isEmpty = false := by
    cases h : values.filter fun p => decide (p.2 < 0) with
    | nil => exact absurd h hneg
    | cons a t => simp [h]
  simp only [limit_check, h1, h2]
  rfl

/-- C7 witness: the value -1 for resource 1 is rejected by limit_check
with the sorted offender list, for arbitrary concrete limits. -/
theorem C7_negative_value_validation_witness :
    ((∀ k ∈ keysOf [((1 : Nat), (-1 : Int))], (fun (_ : Nat) => true) k = true) ∧
     ([((1 : Nat), (-1 : Int))].filter fun p => decide (p.2 < 0)) ≠ []) ∧
    limit_check (fun _ => true) (fun _ => 5) (fun _ => 5) [] [(1, -1)] =
      .error (.invalidQuotaValue
        (sortNat (([((1 : Nat), (-1 : Int))].filter fun p => decide (p.2 < 0)).map (·.1)))) :=
  ⟨⟨by decide, by decide⟩,
   C7_negative_value_validation (fun _ => true) (fun _ => 5) (fun _ => 5) []
     [(1, -1)] (by decide) (by decide)⟩

/-! Counter-map lemmas for the reservation step. -/

theorem getCounter_setCounter (c : CounterMap) (k : Nat) (v : Counter) (k' : Nat) :
    getCounter (setCounter c k v) k' = if k = k' then v else getCounter c k' := by
  unfold getCounter setCounter
  rw [lookupD_dictInsert]
  by_cases h : k = k' <;> simp [h]

theorem getCounter_applyDeltas_notmem :
    ∀ (d : AList) (c : CounterMap) (k : Nat), k ∉ keysOf d →
      getCounter (applyDeltas c d) k = getCounter c k := by
  intro d
  induction d with
  | nil => intro c k _; rfl
  | cons kd t ih =>
      intro c k h
      simp only [keysOf_cons, List.mem_cons, not_or] at h
      show getCounter
        (applyDeltas (setCounter c kd.1 (addReserved (getCounter c kd.1) kd.2)) t) k =
        getCounter c k
      rw [ih _ k h.2, getCounter_setCounter, if_neg (fun hh => h.1 hh.symm)]

theorem getCounter_applyDeltas :
    ∀ (d : AList) (c : CounterMap) (k : Nat) (v : Int), (keysOf d).Nodup →
      lookupD d k = some v →
      getCounter (applyDeltas c d) k = addReserved (getCounter c k) v := by
  intro d
  induction d with
  | nil => intro c k v _ h; exact Option.noConfusion h
  | cons kd t ih =>
      intro c k v hnd h
      obtain ⟨k0, d0⟩ := kd
      simp only [keysOf_cons, List.nodup_cons] at hnd
      by_cases hk : k0 = k
      · subst hk
        simp only [lookupD, if_pos rfl] at h
        injection h with h
        subst h
        show getCounter
          (applyDeltas (setCounter c k0 (addReserved (getCounter c k0) d0)) t) k0 = _
        rw [getCounter_applyDeltas_notmem t _ k0 hnd.1, getCounter_setCounter,
          if_pos rfl]
      · simp only [lookupD, if_neg hk] at h
        show getCounter
          (applyDeltas (setCounter c k0 (addReserved (getCounter c k0) d0)) t) k = _
        rw [ih _ k v hnd.2 h, getCounter_setCounter, if_neg hk]

theorem reserveOk_mem (c : CounterMap) (lim : Nat → Int) (deltas : AList)
    (h : reserveOk c lim deltas = true) (k : Nat) (v : Int)
    (hk : lookupD deltas k = some v) (hlim : 0 ≤ lim k) :
    (getCounter c k).in_use + (getCounter c k).reserved + v ≤ lim k := by
  have hmem := mem_of_lookupD_eq_some hk
  have hall := List.all_eq_true.mp h (k, v) hmem
  simp only [overCheckB, Bool.not_eq_true', Bool.and_eq_false_iff,
    decide_eq_false_iff_not, not_le, not_lt] at hall
  rcases hall with hall | hall
  · exact absurd hlim (not_le.mpr hall)
  · exact hall

/-!
Claim C1.  The store-level reservation step is one atomic
read-check-write, so any concurrent execution of two reserve calls is an
interleaving of whole steps; running the step twice in sequence can never
admit a combined delta that exceeds a non-negative resolved limit on the
same counter.
-/

/-- C1: hard exclusion.  If two reservation steps against the same
project counter both succeed, one after the other, then the combined
usage including both deltas stays within every non-negative resolved
project limit; equivalently, two reservations whose combined effect would
exceed the limit can never both succeed. -/
theorem C1_hard_exclusion (projC userC : CounterMap) (pq uq : Nat → Int)
    (d1 d2 : AList) (k : Nat) (v1 v2 : Int) (s1 s2 s3 s4 : CounterMap)
    (hnd : (keysOf d1).Nodup)
    (h1 : quota_reserve projC userC pq uq d1 = some (s1, s2))
    (h2 : quota_reserve s1 s2 pq uq d2 = some (s3, s4))
    (hk1 : lookupD d1 k = some v1) (hk2 : lookupD d2 k = some v2)
    (hlim : 0 ≤ pq k) :
    (getCounter projC k).in_use + (getCounter projC k).reserved + (v1 + v2) ≤ pq k := by
  rw [quota_reserve] at h1
  by_cases hb1 : (reserveOk projC pq d1 && reserveOk userC uq d1) = true
  · rw [if_pos hb1] at h1
    injection h1 with h1
    have hs1 : s1 = applyDeltas projC d1 := (congrArg Prod.fst h1).symm
    rw [quota_reserve] at h2
    by_cases hb2 : (reserveOk s1 pq d2 && reserveOk s2 uq d2) = true
    · have hok2 : reserveOk s1 pq d2 = true := by
        have hb2' := hb2
        simp only [Bool.and_eq_true] at hb2'
        exact hb2'.1
      have hineq2 := reserveOk_mem s1 pq d2 hok2 k v2 hk2 hlim
      rw [hs1, getCounter_applyDeltas d1 projC k v1 hnd hk1] at hineq2
      simp only [addReserved] at hineq2
      omega
    · rw [if_neg hb2] at h2
      exact Option.noConfusion h2
  · rw [if_neg hb1] at h1
    exact Option.noConfusion h1

/-- C1 witness: with limit 10, a first reservation of 4 and a second of 5
both succeed and 0 + 0 + (4 + 5) stays within the limit. -/
theorem C1_hard_exclusion_witness :
    ((keysOf ([((1 : Nat), (4 : Int))] : AList)).Nodup ∧
     quota_reserve [] [] (fun _ => 10) (fun _ => -1) [(1, 4)] =
       some ([(1, ⟨0, 4⟩)], [(1, ⟨0, 4⟩)]) ∧
     quota_reserve [(1, ⟨0, 4⟩)] [(1, ⟨0, 4⟩)] (fun _ => 10) (fun _ => -1)
       [(1, 5)] = some ([(1, ⟨0, 9⟩)], [(1, ⟨0, 9⟩)]) ∧
     (0 : Int) ≤ 10) ∧
    (getCounter [] 1).in_use + (getCounter [] 1).reserved + (4 + 5) ≤ 10 :=
  ⟨⟨by decide, by decide, by decide, by decide⟩,
   C1_hard_exclusion [] [] (fun _ => 10) (fun _ => -1) [(1, 4)] [(1, 5)] 1 4 5
     [(1, ⟨0, 4⟩)] [(1, ⟨0, 4⟩)] [(1, ⟨0, 9⟩)] [(1, ⟨0, 9⟩)] (by decide)
     (by decide) (by decide) (by decide) (by decide) (by decide)⟩

/-!
Claim C8.  The no-op driver does report -1 for every limit and always
returns an empty reservation list, but the usages it reports are -1 as
well, not zero: _get_noop_quotas writes in_use = -1 and reserved = -1.
-/

/-- C8 counterexample: the no-op driver's get_user_quotas with usages
requested reports in_use = -1 for resource 3, not the zero the claim
requires. -/
theorem C8_counterexample :
    (lookupD (noop_get_user_quotas [3] 0 0 true) 3).map (·.in_use) =
      some (some (-1)) ∧
    (some (some (-1)) : Option (Option Int)) ≠ some (some 0) := by
  decide

/-- C8 (amended): every limit query of the no-op driver reports -1 for
every registered resource, its reserve always returns the empty
reservation-id list whatever the deltas, and the usage fields it reports
when usages are requested are -1 (the unlimited marker), not zero. -/
theorem C8_noop_driver (rs : List Nat) (n c p u q : Nat) (d : AList)
    (e : ExpireArg) (usages remains : Bool) (hn : n ∈ rs) :
    lookupD (noop_get_defaults rs) n = some (-1) ∧
    lookupD (noop_get_class_quotas rs c) n = some (-1) ∧
    lookupD (noop_get_noop_quotas rs usages remains) n =
      some ⟨-1, if usages then some (-1) else none,
            if usages then some (-1) else none,
            if remains then some (-1) else none⟩ ∧
    lookupD (noop_get_user_quotas rs p u usages) n =
      some ⟨-1, if usages then some (-1) else none,
            if usages then some (-1) else none, none⟩ ∧
    lookupD (noop_get_project_quotas rs p usages remains) n =
      some ⟨-1, if usages then some (-1) else none,
            if usages then some (-1) else none,
            if remains then some (-1) else none⟩ ∧
    noop_get_by_project_and_user p u q = -1 ∧
    noop_get_by_project p q = -1 ∧
    noop_get_by_class c q = -1 ∧
    lookupD (noop_get_settable_quotas rs) n = some ⟨0, -1⟩ ∧
    noop_reserve d e = [] := by
  refine ⟨?_, ?_, ?_, ?_, ?_, rfl, rfl, rfl, ?_, rfl⟩
  · unfold noop_get_defaults
    rw [lookupD_map_mk, if_pos hn]
  · unfold noop_get_class_quotas
    rw [lookupD_map_mk, if_pos hn]
  · unfold noop_get_noop_quotas
    rw [lookupD_map_mk, if_pos hn]
  · unfold noop_get_user_quotas noop_get_noop_quotas
    rw [lookupD_map_mk, if_pos hn]
    rfl
  · unfold noop_get_project_quotas noop_get_noop_quotas
    rw [lookupD_map_mk, if_pos hn]
  · unfold noop_get_settable_quotas
    rw [lookupD_map_mk, if_pos hn]

/-- C8 witness: the no-op driver evaluated for resource 3. -/
theorem C8_noop_driver_witness :
    ((3 : Nat) ∈ [(3 : Nat)]) ∧
    (lookupD (noop_get_defaults [3]) 3 = some (-1) ∧
     lookupD (noop_get_class_quotas [3] 0) 3 = some (-1) ∧
     lookupD (noop_get_noop_quotas [3] true false) 3 =
       some ⟨-1, some (-1), some (-1), none⟩ ∧
     lookupD (noop_get_user_quotas [3] 0 0 true) 3 =
       some ⟨-1, some (-1), some (-1), none⟩ ∧
     lookupD (noop_get_project_quotas [3] 0 true false) 3 =
       some ⟨-1, some (-1), some (-1), none⟩ ∧
     noop_get_by_project_and_user 0 0 3 = -1 ∧
     noop_get_by_project 0 3 = -1 ∧
     noop_get_by_class 0 3 = -1 ∧
     lookupD (noop_get_settable_quotas [3]) 3 = some ⟨0, -1⟩ ∧
     noop_reserve [(3, -7)] .other = []) :=
  ⟨by decide, C8_noop_driver [3] 3 0 0 0 3 [(3, -7)] .other true false (by decide)⟩

/-!
Claim C9.  The QuotaEngine catalog is a dictionary keyed by resource
name: registering an existing name replaces the entry, and starting from
a duplicate-free catalog every registration sequence keeps it
duplicate-free.
-/

theorem nodup_register_resources (c : Catalog) (rs : List Resource)
    (h : (keysOf c).Nodup) : (keysOf (register_resources c rs)).Nodup := by
  induction rs generalizing c with
  | nil => exact h
  | cons r t ih =>
      show (keysOf (register_resources (register_resource c r) t)).Nodup
      exact ih _ (nodup_keysOf_dictInsert c r.name r h)

/-- C9: registering a resource makes the catalog map its name to exactly
that resource (in particular the last registration of a name wins over
any sequence of earlier registrations), and the catalog never acquires
two entries with the same name. -/
theorem C9_register_last_wins (c : Catalog) (rs : List Resource) (r : Resource)
    (h : (keysOf c).Nodup) :
    lookupD (register_resource c r) r.name = some r ∧
    lookupD (register_resources c (rs ++ [r])) r.name = some r ∧
    (keysOf (register_resource c r)).Nodup ∧
    (keysOf (register_resources c (rs ++ [r]))).Nodup := by
  refine ⟨?_, ?_, nodup_keysOf_dictInsert c r.name r h,
    nodup_register_resources c (rs ++ [r]) h⟩
  · rw [register_resource, lookupD_dictInsert, if_pos rfl]
  · rw [register_resources, List.foldl_append]
    show lookupD (register_resource (register_resources c rs) r) r.name = some r
    rw [register_resource, lookupD_dictInsert, if_pos rfl]

/-- C9 witness: registering name 1 twice leaves a single entry holding
the second resource. -/
theorem C9_register_last_wins_witness :
    (keysOf ([] : Catalog)).Nodup ∧
    lookupD (register_resources []
        ([⟨1, .absolute, none⟩] ++ [⟨1, .countable, some 4⟩]))
      (Resource.mk 1 .countable (some 4)).name =
        some ⟨1, .countable, some 4⟩ ∧
    (keysOf (register_resources []
        ([⟨1, .absolute, none⟩] ++ [⟨1, .countable, some 4⟩]))).Nodup :=
  ⟨by decide,
   (C9_register_last_wins [] [⟨1, .absolute, none⟩] ⟨1, .countable, some 4⟩
     (by decide)).2.1,
   (C9_register_last_wins [] [⟨1, .absolute, none⟩] ⟨1, .countable, some 4⟩
     (by decide)).2.2.2⟩

/-! Lemmas about the limit/usage assembly chain. -/

theorem keysOf_map_mk (g : Nat → α) (l : List Nat) :
    keysOf (l.map fun a => (a, g a)) = l := by
  induction l with
  | nil => rfl
  | cons a t ih => simp [keysOf_cons, ih]

theorem uls_shift (t : List (Nat × Int)) (n : Nat) :
    ∀ a : Int, t.foldl (fun a q => if q.1 = n then a + q.2 else a) a =
      a + t.foldl (fun a q => if q.1 = n then a + q.2 else a) 0 := by
  induction t with
  | nil => intro a; simp
  | cons q t ih =>
      intro a
      rw [List.foldl_cons, List.foldl_cons, ih, ih (if q.1 = n then 0 + q.2 else 0)]
      by_cases hq : q.1 = n
      · rw [if_pos hq, if_pos hq]
        omega
      · rw [if_neg hq, if_neg hq]
        omega

theorem user_limits_sum_cons (q : Nat × Int) (t : List (Nat × Int)) (n : Nat) :
    user_limits_sum (q :: t) n =
      (if q.1 = n then q.2 else 0) + user_limits_sum t n := by
  unfold user_limits_sum
  rw [List.foldl_cons]
  by_cases hq : q.1 = n
  · rw [if_pos hq, if_pos hq, uls_shift]
    omega
  · rw [if_neg hq, if_neg hq, uls_shift]
    omega

theorem lookupD_remains_update (base : List (Nat × ProcessedQuota)) (k0 : Nat)
    (h0 : Int) (n : Nat) :
    lookupD (base.map fun p =>
        if p.1 = k0 then (p.1, { p.2 with remains := p.2.remains.map (· - h0) })
        else p) n =
      if n = k0 then
        (lookupD base n).map fun v => { v with remains := v.remains.map (· - h0) }
      else lookupD base n := by
  induction base with
  | nil => by_cases h : n = k0 <;> simp [lookupD, h]
  | cons p t ih =>
      obtain ⟨k1, v1⟩ := p
      by_cases h1 : k1 = k0
      · subst h1
        simp only [List.map_cons, if_pos rfl]
        by_cases h2 : k1 = n
        · subst h2
          simp [lookupD]
        · have h2' : ¬ n = k1 := fun h => h2 h.symm
          simp only [lookupD, if_neg h2, ih]
      · simp only [List.map_cons, if_neg h1]
        by_cases h2 : k1 = n
        · subst h2
          simp [lookupD, h1]
        · simp only [lookupD, if_neg h2, ih]

theorem lookupD_remainsFold :
    ∀ (rows : List (Nat × Int)) (base : List (Nat × ProcessedQuota)) (n : Nat),
      containsKey base n = true →
      lookupD (remainsFold base rows) n =
        (lookupD base n).map fun p =>
          { p with remains := p.remains.map (· - user_limits_sum rows n) } := by
  intro rows
  induction rows with
  | nil =>
      intro base n _
      have hid : ∀ p : ProcessedQuota,
          ({ p with remains := p.remains.map (· - user_limits_sum [] n) }) = p := by
        intro p
        obtain ⟨l, iu, rv, rm⟩ := p
        cases rm <;> simp [user_limits_sum]
      show lookupD (remainsFold base []) n = _
      unfold remainsFold
      rw [List.foldl_nil]
      cases h : lookupD base n with
      | none => simp
      | some p => simp [hid p]
  | cons row t ih =>
      intro base n hc
      unfold remainsFold
      rw [List.foldl_cons]
      show lookupD (remainsFold
        (if containsKey base row.1 then
          base.map fun p =>
            if p.1 = row.1 then
              (p.1, { p.2 with remains := p.2.remains.map (· - row.2) })
            else p
         else base) t) n = _
      by_cases hcr : containsKey base row.1 = true
      · rw [if_pos hcr]
        have hc' : containsKey (base.map fun p =>
            if p.1 = row.1 then
              (p.1, { p.2 with remains := p.2.remains.map (· - row.2) })
            else p) n = true := by
          unfold containsKey at hc ⊢
          rw [lookupD_remains_update]
          by_cases hn : n = row.1
          · rw [if_pos hn]
            cases h : lookupD base n with
            | none => rw [h] at hc; simp at hc
            | some p => simp
          · rw [if_neg hn]
            exact hc
        rw [ih _ n hc', lookupD_remains_update]
        by_cases hn : n = row.1
        · rw [if_pos hn, Option.map_map]
          have hfun : ((fun p : ProcessedQuota =>
                { p with remains := p.remains.map (· - user_limits_sum t n) }) ∘
              (fun p : ProcessedQuota =>
                { p with remains := p.remains.map (· - row.2) })) =
              (fun p : ProcessedQuota =>
                { p with remains := p.remains.map (· - user_limits_sum (row :: t) n) }) := by
            funext p
            obtain ⟨l, iu, rv, rm⟩ := p
            have hr : row.1 = n := hn.symm
            cases rm with
            | none => simp [user_limits_sum_cons]
            | some r =>
                simp only [Function.comp, Option.map_some, user_limits_sum_cons,
                  if_pos hr]
                have : r - row.2 - user_limits_sum t n =
                    r - (row.2 + user_limits_sum t n) := by omega
                simp [this]
          rw [hfun]
        · rw [if_neg hn]
          have hr : ¬ row.1 = n := fun h => hn h.symm
          rw [show user_limits_sum (row :: t) n = user_limits_sum t n from by
            rw [user_limits_sum_cons, if_neg hr]; omega]
      · rw [if_neg hcr]
        have hr : ¬ row.1 = n := by
          intro h
          rw [h] at hcr
          exact hcr hc
        rw [ih base n hc]
        rw [show user_limits_sum (row :: t) n = user_limits_sum t n from by
          rw [user_limits_sum_cons, if_neg hr]; omega]

theorem lookupD_get_defaults (dc : AList) (rD : Nat → Int) (rs : List Nat)
    (n : Nat) (hn : n ∈ rs) :
    lookupD (get_defaults dc rD rs) n = some (getD dc n (rD n)) := by
  unfold get_defaults
  rw [lookupD_map_mk, if_pos hn]

theorem lookupD_process_quotas (rs : List Nat) (q cq dc : AList)
    (rD : Nat → Int) (us : AList) (aq : List (Nat × Int)) (rem : Bool)
    (n : Nat) (hn : n ∈ rs) :
    lookupD (process_quotas rs q cq dc rD true us aq rem) n =
      some { limit := resolved_limit q cq dc rD n
             in_use := if !us.isEmpty then some (getD us n 0) else none
             reserved := if !us.isEmpty then some 0 else none
             remains := if rem then
                 some (resolved_limit q cq dc rD n - user_limits_sum aq n)
               else none } := by
  have hbase : lookupD ((rs.map fun n =>
      (n, { limit := getD q n (getD cq n (getD (get_defaults dc rD rs) n 0))
            in_use := if !us.isEmpty then some (getD us n 0) else none
            reserved := if !us.isEmpty then some 0 else none
            remains := if rem then
                some (getD q n (getD cq n (getD (get_defaults dc rD rs) n 0)))
              else none : ProcessedQuota })) : List (Nat × ProcessedQuota)) n =
      some { limit := resolved_limit q cq dc rD n
             in_use := if !us.isEmpty then some (getD us n 0) else none
             reserved := if !us.isEmpty then some 0 else none
             remains := if rem then some (resolved_limit q cq dc rD n)
               else none } := by
    rw [lookupD_map_mk, if_pos hn]
    have hdq : getD (get_defaults dc rD rs) n 0 = getD dc n (rD n) := by
      unfold getD
      rw [lookupD_get_defaults dc rD rs n hn]
      rfl
    rw [hdq]
    rfl
  by_cases hrem : rem = true
  · subst hrem
    have hck : containsKey (rs.map fun n =>
        (n, { limit := getD q n (getD cq n (getD (get_defaults dc rD rs) n 0))
              in_use := if !us.isEmpty then some (getD us n 0) else none
              reserved := if !us.isEmpty then some 0 else none
              remains := if true then
                  some (getD q n (getD cq n (getD (get_defaults dc rD rs) n 0)))
                else none : ProcessedQuota })) n = true := by
      unfold containsKey
      rw [hbase]
      rfl
    have hpq : process_quotas rs q cq dc rD true us aq true =
        remainsFold (rs.map fun n =>
          (n, { limit := getD q n (getD cq n (getD (get_defaults dc rD rs) n 0))
                in_use := if !us.isEmpty then some (getD us n 0) else none
                reserved := if !us.isEmpty then some 0 else none
                remains := if true then
                    some (getD q n (getD cq n (getD (get_defaults dc rD rs) n 0)))
                  else none : ProcessedQuota })) aq := rfl
    rw [hpq, lookupD_remainsFold aq _ n hck, hbase]
    simp
  · have hrem' : rem = false := by
      cases rem
      · rfl
      · exact absurd rfl hrem
    subst hrem'
    have hpq : process_quotas rs q cq dc rD true us aq false =
        (rs.map fun n =>
          (n, { limit := getD q n (getD cq n (getD (get_defaults dc rD rs) n 0))
                in_use := if !us.isEmpty then some (getD us n 0) else none
                reserved := if !us.isEmpty then some 0 else none
                remains := if false then
                    some (getD q n (getD cq n (getD (get_defaults dc rD rs) n 0)))
                  else none : ProcessedQuota })) := rfl
    rw [hpq]
    exact hbase

/-!
Claim C5.  The settable-range arithmetic goes through the absorbing
helpers, whose unlimited test is v <= -1: a negative remains (possible
when the per-user limits over-allocate the project limit) is absorbed to
-1 instead of entering the claimed plain-integer formulas.
-/

/-- C5 counterexample: project limit 10 with two per-user limits 7 and 8
gives remains = -5; the claimed project-level minimum is
max(10 - (-5), 0) = 15, but the driver returns minimum 0 because
_sub_quota_values treats -5 as unlimited and yields -1. -/
theorem C5_counterexample :
    get_settable_quotas [7] [(7, 10)] [] [] (fun _ => 0) [(7, 7), (7, 8)]
        [(7, 0)] false [] [] = some [(7, ⟨0, -1⟩)] ∧
    max ((10 : Int) - (10 - 15)) 0 = 15 ∧ ((0 : Int) ≠ 15) := by
  decide

/-- C5 (amended): for every registered resource, with a user the settable
maximum is sum_quota_values(remains, the user's explicit limit or 0) and
the minimum is the user's counted in_use; without a user the maximum is
-1 and the minimum is max(sub_quota_values(limit, remains), in_use);
remains is the resolved project limit minus the sum of the per-user
explicit limits, and both helpers absorb any argument at most -1 to -1
instead of doing plain arithmetic. -/
theorem C5_settable_quotas (rs : List Nat) (db_proj cq dc : AList)
    (rD : Nat → Int) (aq : List (Nat × Int)) (up setted uu : AList) (n : Nat)
    (hn : n ∈ rs) (hup : up ≠ []) (huu : uu ≠ []) :
    (get_settable_quotas rs db_proj cq dc rD aq up true setted uu).bind
        (fun l => lookupD l n) =
      some { minimum := getD uu n 0
             maximum := sum_quota_values
               (resolved_limit db_proj cq dc rD n - user_limits_sum aq n)
               (getD setted n 0) } ∧
    (get_settable_quotas rs db_proj cq dc rD aq up false setted uu).bind
        (fun l => lookupD l n) =
      some { minimum := max
               (sub_quota_values (resolved_limit db_proj cq dc rD n)
                 (resolved_limit db_proj cq dc rD n - user_limits_sum aq n))
               (getD up n 0)
             maximum := -1 } := by
  have hup' : up.isEmpty = false := by
    cases up with
    | nil => exact absurd rfl hup
    | cons a t => rfl
  have huu' : uu.isEmpty = false := by
    cases uu with
    | nil => exact absurd rfl huu
    | cons a t => rfl
  have hBu : lookupD (get_user_quotas rs setted db_proj cq dc rD uu) n =
      some { limit := resolved_limit (userQuotasMerged setted db_proj) cq dc rD n
             in_use := if !uu.isEmpty then some (getD uu n 0) else none
             reserved := if !uu.isEmpty then some 0 else none
             remains := none } := by
    unfold get_user_quotas
    rw [lookupD_process_quotas _ _ _ _ _ _ _ _ n hn]
    rfl
  have hBp : lookupD (get_project_quotas rs db_proj cq dc rD up aq) n =
      some { limit := resolved_limit db_proj cq dc rD n
             in_use := if !up.isEmpty then some (getD up n 0) else none
             reserved := if !up.isEmpty then some 0 else none
             remains := some (resolved_limit db_proj cq dc rD n -
               user_limits_sum aq n) } := by
    unfold get_project_quotas
    rw [lookupD_process_quotas _ _ _ _ _ _ _ _ n hn]
    rfl
  constructor
  · have hres : get_settable_quotas rs db_proj cq dc rD aq up true setted uu =
        some ((get_user_quotas rs setted db_proj cq dc rD uu).map fun p => (p.1,
          { minimum := (p.2.in_use).getD 0
            maximum := sum_quota_values
              (((lookupD (get_project_quotas rs db_proj cq dc rD up aq) p.1).bind
                  (·.remains)).getD 0)
              (getD setted p.1 0) : SettableRange })) := by
      unfold get_settable_quotas
      simp [huu']
    rw [hres]
    simp only [Option.some_bind]
    rw [lookupD_map_keyed, hBu]
    simp [hBp, huu']
  · have hres : get_settable_quotas rs db_proj cq dc rD aq up false setted uu =
        some ((get_project_quotas rs db_proj cq dc rD up aq).map fun p => (p.1,
          { minimum := max (sub_quota_values p.2.limit ((p.2.remains).getD 0))
              ((p.2.in_use).getD 0)
            maximum := -1 : SettableRange })) := by
      unfold get_settable_quotas
      simp [hup']
    rw [hres]
    simp only [Option.some_bind]
    rw [lookupD_map_keyed, hBp]
    simp [hup']

/-- C5 witness: class default 20, two users at limit 5 each (remains 10);
a user holding limit 5 with in_use 2 gets range [2, 15], and the
project-level range at in_use 0 is [10, unlimited]. -/
theorem C5_settable_quotas_witness :
    ((7 : Nat) ∈ [(7 : Nat)] ∧ ([((7 : Nat), (0 : Int))] : AList) ≠ [] ∧
     ([((7 : Nat), (2 : Int))] : AList) ≠ []) ∧
    ((get_settable_quotas [7] [] [] [(7, 20)] (fun _ => 0) [(7, 5), (7, 5)]
        [(7, 0)] true [(7, 5)] [(7, 2)]).bind (fun l => lookupD l 7) =
      some { minimum := getD [(7, 2)] 7 0
             maximum := sum_quota_values
               (resolved_limit [] [] [(7, 20)] (fun _ => 0) 7 -
                 user_limits_sum [(7, 5), (7, 5)] 7)
               (getD [(7, 5)] 7 0) } ∧
     (get_settable_quotas [7] [] [] [(7, 20)] (fun _ => 0) [(7, 5), (7, 5)]
        [(7, 0)] false [(7, 5)] [(7, 2)]).bind (fun l => lookupD l 7) =
      some { minimum := max
               (sub_quota_values (resolved_limit [] [] [(7, 20)] (fun _ => 0) 7)
                 (resolved_limit [] [] [(7, 20)] (fun _ => 0) 7 -
                   user_limits_sum [(7, 5), (7, 5)] 7))
               (getD [(7, 0)] 7 0)
             maximum := -1 }) :=
  ⟨⟨by decide, by decide, by decide⟩,
   C5_settable_quotas [7] [] [] [(7, 20)] (fun _ => 0) [(7, 5), (7, 5)]
     [(7, 0)] [(7, 5)] [(7, 2)] 7 (by decide) (by decide) (by decide)⟩

end NovaQuota
